import Mathlib

/-!
Verification development for the `swagcli` repository.

Shallow embedding of the parts of the source relevant to the frozen claims:
  * `swagcli/cache.py`        (`Cache._get_cache_key`, `Cache.get`, `Cache.set`)
  * `swagcli/client.py`       (`APIClient._make_request`)
  * `swagcli/commandstore.py` (`CommandStore.add_path`, `_get_node_by_path`)
  * `swagcli/cli.py`          (`Swagcli._parse_paths`, `_update_payload_value`,
                               `_get_param_options`)

Python values that can appear in dicts (parameter defaults, bound argument
values, JSON bodies, ...) are modelled by the inductive type `PyVal` together
with Python's truthiness test.  Machine time (`time.time()`) is modelled by an
`Int`-valued clock passed explicitly; `float` time/elapsed values carry no
arithmetic subtleties relevant to the claims, so integers stand in for them.
-/

/-- A Python value, as far as the claims need it: `None`, booleans, ints,
strings, lists and string-keyed dicts (dicts keep insertion order, as in
Python 3.7+). -/
inductive PyVal : Type where
  | none : PyVal
  | bool : Bool → PyVal
  | int : Int → PyVal
  | str : String → PyVal
  | list : List PyVal → PyVal
  | dict : List (String × PyVal) → PyVal

/-- Python truthiness (`bool(v)`): `None`, `False`, `0`, `""`, `[]` and
`{}` are falsy, everything else truthy.  (Not recursive: a non-empty list is
truthy whatever its elements.) -/
def PyVal.truthy : PyVal → Bool
  | .none => false
  | .bool b => b
  | .int n => n != 0
  | .str s => s ≠ ""
  | .list l => !l.isEmpty
  | .dict l => !l.isEmpty

/-- `isinstance(v, list)`. -/
def PyVal.isList : PyVal → Bool
  | .list _ => true
  | _ => false

/-- `str.lower()` on one character (the option names the claims involve are
ASCII; Python lower-cases `'A'..'Z'` to `'a'..'z'`). -/
def charLower (c : Char) : Char :=
  if 'A' ≤ c ∧ c ≤ 'Z' then Char.ofNat (c.toNat + 32) else c

/-- Python `str.lower()`. -/
def pyLower (s : String) : String := String.mk (s.data.map charLower)

/-- `str.upper()` on one character. -/
def charUpper (c : Char) : Char :=
  if 'a' ≤ c ∧ c ≤ 'z' then Char.ofNat (c.toNat - 32) else c

/-- Python `str.upper()`. -/
def pyUpper (s : String) : String := String.mk (s.data.map charUpper)

/-- Python `str.split(c)` on character lists: every occurrence of the
separator splits, empty pieces are kept (`"".split("/") == [""]`). -/
def splitChar (c : Char) : List Char → List (List Char)
  | [] => [[]]
  | a :: rest =>
      match splitChar c rest with
      | [] => [[a]]
      | g :: gs => if a = c then [] :: g :: gs else (a :: g) :: gs

/-- A Python dict in insertion order (the argument type of `params` / `data`
in `cache.py` and `client.py`). -/
abbrev PyDict : Type := List (String × PyVal)

/-- `json.dumps` of a string (escaping is irrelevant to the claims: only
equality of dumps is ever used, and quoting is injective on the strings the
claims touch). -/
def jsonQuote (s : String) : String := "\"" ++ s ++ "\""

/-- Order used by `sorted` / `sort_keys=True` on dict items: compare by key.
-/
def keyLE (a b : String × String) : Prop := a.1 ≤ b.1

instance : DecidableRel keyLE := fun a b => inferInstanceAs (Decidable (a.1 ≤ b.1))

mutual

/-- `json.dumps(v, sort_keys=True)`: dict keys are emitted in sorted order.
Entries of a dict are rendered first and then sorted by key, which agrees
with Python's sort-items-then-render because sorting does not change keys. -/
def dumpVal : PyVal → String
  | .none => "null"
  | .bool true => "true"
  | .bool false => "false"
  | .int n => toString n
  | .str s => jsonQuote s
  | .list l => "[" ++ ", ".intercalate (dumpList l) ++ "]"
  | .dict l =>
      let rendered := (dumpEntries l).insertionSort keyLE
      "\x7b" ++ ", ".intercalate (rendered.map fun kv => jsonQuote kv.1 ++ ": " ++ kv.2) ++ "\x7d"

def dumpList : List PyVal → List String
  | [] => []
  | v :: vs => dumpVal v :: dumpList vs

def dumpEntries : List (String × PyVal) → List (String × String)
  | [] => []
  | kv :: l => (kv.1, dumpVal kv.2) :: dumpEntries l

end

/-- `json.dumps(d, sort_keys=True)` for a top-level dict argument. -/
def dumpDict (d : PyDict) : String := dumpVal (.dict d)

/-- Truthiness of an `Optional[Dict]` argument (`if params:`): `None` and the
empty dict are both falsy. -/
def pyDictTruthy : Option PyDict → Bool
  | Option.none => false
  | Option.some d => !d.isEmpty

/--
`Cache._get_cache_key` (cache.py lines 17-29):

    key_parts = [method, url]
    if params:
        key_parts.append(json.dumps(params, sort_keys=True))
    if data:
        key_parts.append(json.dumps(data, sort_keys=True))
    return hashlib.sha256("|".join(key_parts).encode()).hexdigest()

The key is modelled by the sha256 *preimage* `"|".join(key_parts)`: the hash
is a fixed function of it, so equal preimages give equal cache keys, which is
all the claims ever use.
-/
def get_cache_key (method url : String) (params data : Option PyDict) : String :=
  let key_parts := [method, url]
  let key_parts := if pyDictTruthy params then key_parts ++ [dumpDict (params.getD [])] else key_parts
  let key_parts := if pyDictTruthy data then key_parts ++ [dumpDict (data.getD [])] else key_parts
  "|".intercalate key_parts

/-- `models.APIResponse` (models.py lines 34-38).  `data` is a JSON value,
`elapsed` (a Python float) is modelled by an integer stand-in: the claims
only ever move it around. -/
structure APIResponse where
  status_code : Int
  data : PyVal
  headers : List (String × String)
  elapsed : Int

/-- The value stored in the diskcache under a key is the tuple
`(time.time(), api_response.model_dump())`.  `Cache.get` checks that the
second component is a dict with exactly the `APIResponse` keys before
reconstructing; `respDump r` models a well-formed dump (reconstruction
returns a response equal to `r`), `malformed` models anything else found in
the shared store. -/
inductive StoredPayload : Type where
  | respDump : APIResponse → StoredPayload
  | malformed : StoredPayload

/-- One diskcache entry: key, diskcache-level expiry time (`set`'s
`expire=ttl` makes it `timestamp + ttl`), plus the stored tuple
`(timestamp, payload)`. -/
structure CacheEntry where
  key : String
  expireAt : Int
  timestamp : Int
  payload : StoredPayload

/-- The diskcache store. -/
abbrev CacheStore : Type := List CacheEntry

/-- `config.CacheConfig` (config.py lines 21-25); `ttl : int`. -/
structure CacheConfig where
  enabled : Bool
  ttl : Int

/-- `diskcache.Cache.get`: a lookup at time `now` finds an entry only while
its expire time is strictly in the future (diskcache selects rows with
`expire_time > now`, so an entry whose expire time equals `now` is already
a miss). -/
def storeLookup (store : CacheStore) (key : String) (now : Int) : Option (Int × StoredPayload) :=
  match store.find? (fun e => e.key == key) with
  | Option.none => Option.none
  | Option.some e => if e.expireAt ≤ now then Option.none else Option.some (e.timestamp, e.payload)

/-- `diskcache.Cache.delete`. -/
def storeDelete (store : CacheStore) (key : String) : CacheStore :=
  store.filter (fun e => e.key != key)

/-- `diskcache.Cache.set` with `expire=ttl`: upsert of the entry. -/
def storeSet (store : CacheStore) (key : String) (now ttl : Int) (payload : StoredPayload) : CacheStore :=
  { key := key, expireAt := now + ttl, timestamp := now, payload := payload } :: storeDelete store key

/--
`Cache.get` (cache.py lines 31-57).  Returns the result together with the
store after the call (`get` deletes an entry it finds expired by the lazy
`time.time() - timestamp > ttl` check).
-/
def cache_get (cfg : CacheConfig) (store : CacheStore) (now : Int)
    (method url : String) (params data : Option PyDict) : Option APIResponse × CacheStore :=
  if !cfg.enabled then (Option.none, store)
  else
    let cache_key := get_cache_key method url params data
    match storeLookup store cache_key now with
    | Option.none => (Option.none, store)
    | Option.some (timestamp, payload) =>
        if now - timestamp > cfg.ttl then (Option.none, storeDelete store cache_key)
        else
          match payload with
          | .respDump r => (Option.some r, store)
          | .malformed => (Option.none, store)

/--
`Cache.set` (cache.py lines 59-74): no-op when caching is disabled, else
stores `(time.time(), api_response.model_dump())` under the computed key with
diskcache expiry `ttl`.
-/
def cache_set (cfg : CacheConfig) (store : CacheStore) (now : Int)
    (method url : String) (api_response : APIResponse)
    (params request_data : Option PyDict) : CacheStore :=
  if !cfg.enabled then store
  else
    let cache_key := get_cache_key method url params request_data
    storeSet store cache_key now cfg.ttl (.respDump api_response)

/-! ### `Swagcli._update_payload_value` (cli.py lines 171-184) -/

/-- A compiled slot payload: slot kind (`"path"`, `"query"`, ...) to an
ordered mapping from parameter name to its (initially `None`) value. -/
abbrev Payload : Type := List (String × List (String × PyVal))

/-- `value_map.get(name, None)` for the bound-argument map (`kwargs`). -/
def valueMapGet (value_map : PyDict) (name : String) : PyVal :=
  match value_map.find? (fun kv => kv.1 == name) with
  | Option.none => PyVal.none
  | Option.some kv => kv.2

/--
`Swagcli._update_payload_value`:

    for p_type, arg_list in payload.items():
        for arg_name in arg_list.keys():
            arg_value = value_map.get(arg_name, None)
            if not arg_value:
                arg_value = value_map.get(arg_name.lower(), None)
            payload[p_type][arg_name] = arg_value
    return payload
-/
def update_payload_value (payload : Payload) (value_map : PyDict) : Payload :=
  payload.map fun slot =>
    (slot.1, slot.2.map fun arg =>
      let arg_value := valueMapGet value_map arg.1
      let arg_value := if !arg_value.truthy then valueMapGet value_map (pyLower arg.1) else arg_value
      (arg.1, arg_value))

/-- What the spec sentence for C5 describes: exact-name value whenever the
name is present, otherwise the lower-cased-name value, `None` when neither is
present.  (Spec-side definition, to be compared with the code.) -/
def specResolveClaimed (value_map : PyDict) (name : String) : PyVal :=
  match value_map.find? (fun kv => kv.1 == name) with
  | Option.some kv => kv.2
  | Option.none => valueMapGet value_map (pyLower name)

/-- The amended resolution rule: the exact-name value when it is present
*and truthy*, otherwise the lower-cased-name value (`None` when absent). -/
def specResolveAmended (value_map : PyDict) (name : String) : PyVal :=
  let v := valueMapGet value_map name
  if v.truthy then v else valueMapGet value_map (pyLower name)

/-! ### `Swagcli._get_param_options` (cli.py lines 186-235) -/

/-- The `type/enum/default/description` keys a parameter spec (or its
`items` sub-spec) may carry, as read through `dict.get` (absent keys give
`None`). -/
structure ParamFields where
  type : Option String := Option.none
  enum : Option (List String) := Option.none
  description : Option String := Option.none
  default : Option PyVal := Option.none

/-- An operation parameter spec: `name` is required (enforced by
`_verify_config(param, {"name": ""})`), the rest optional.  `items` is the
element spec of an array parameter. -/
structure Param where
  name : String
  in_ : Option String := Option.none
  required : Bool := false
  fields : ParamFields := {}
  items : Option ParamFields := Option.none

/-- Python truthiness of an `Optional[str]` value fetched by `dict.get`. -/
def optStrTruthy : Option String → Bool
  | Option.none => false
  | Option.some s => s ≠ ""

/-- Python truthiness of an `Optional[list]` value fetched by `dict.get`. -/
def optListTruthy : Option (List String) → Bool
  | Option.none => false
  | Option.some l => !l.isEmpty

/-- Python truthiness of an optional `PyVal`. -/
def optValTruthy : Option PyVal → Bool
  | Option.none => false
  | Option.some v => v.truthy

/--
`_prepare_args(tmp_options, option_map, local_param)`: for each of the keys
`type, enum, help, default` (in `option_map` order), overwrite the entry of
`tmp_options` when the parameter carries a *truthy* value for it.
-/
def prepare_args (tmp_options : ParamFields) (local_param : ParamFields) : ParamFields :=
  { type := if optStrTruthy local_param.type then local_param.type else tmp_options.type
    enum := if optListTruthy local_param.enum then local_param.enum else tmp_options.enum
    description := if optStrTruthy local_param.description then local_param.description else tmp_options.description
    default := if optValTruthy local_param.default then local_param.default else tmp_options.default }

/-- A click option type: `int`, `str`, or `click.Choice(enum)`. -/
inductive ClickType : Type where
  | cInt : ClickType
  | cStr : ClickType
  | cChoice : List String → ClickType

/-- `data_type_map = {"integer": int, "string": str}` with `str` as the
`dict.get` fallback. -/
def data_type_map (t : String) : ClickType :=
  if t = "integer" then .cInt else if t = "string" then .cStr else .cStr

/-- The keyword arguments `_get_param_options` hands to `click.option`:
`required` always, `multiple` for array parameters, and `type`/`help`/
`default` when the corresponding `tmp_options` key was populated. -/
structure OptionKwargs where
  required : Bool
  multiple : Bool := false
  type : Option ClickType := Option.none
  help : Option String := Option.none
  default : Option PyVal := Option.none

/--
`Swagcli._get_param_options(param)` (cli.py lines 186-235).  Returns `none`
exactly where the Python raises: an array parameter without an `items` dict
makes `_prepare_args(..., param.get("items"))` call `.get` on `None`.

    option_kwargs = {"required": param.get("required", False)}
    tmp_options = _prepare_args({}, option_map, param)
    if tmp_options.get("type") == "array":
        option_kwargs["multiple"] = True
        tmp_options = _prepare_args(tmp_options, option_map, param.get("items"))
        if "default" in tmp_options and not isinstance(tmp_options["default"], list):
            tmp_options["default"] = [tmp_options["default"]]
    return _update_args(option_kwargs, tmp_options)
-/
def get_param_options (param : Param) : Option OptionKwargs :=
  let option_required := param.required
  let tmp_options := prepare_args {} param.fields
  let step : Option (Bool × ParamFields) :=
    if tmp_options.type = Option.some "array" then
      match param.items with
      | Option.none => Option.none
      | Option.some items =>
          let tmp_options := prepare_args tmp_options items
          let tmp_options :=
            match tmp_options.default with
            | Option.some d => if !d.isList then { tmp_options with default := Option.some (.list [d]) } else tmp_options
            | Option.none => tmp_options
          Option.some (true, tmp_options)
    else Option.some (false, tmp_options)
  match step with
  | Option.none => Option.none
  | Option.some (multiple, tmp_options) =>
      -- `_update_args`: skip `enum`; for `type` use `data_type_map` unless an
      -- `enum` key is present, in which case use `click.Choice(enum)`.
      Option.some
        { required := option_required
          multiple := multiple
          type :=
            match tmp_options.type with
            | Option.none => Option.none
            | Option.some t =>
                match tmp_options.enum with
                | Option.some es => Option.some (.cChoice es)
                | Option.none => Option.some (data_type_map t)
          help := tmp_options.description
          default := tmp_options.default }

/-! ### `APIClient._make_request` (client.py lines 75-194) -/

/-- Observable events of one `_make_request` call, in order: the cache
lookup (`self.cache.get`, line 95), the `on_request` plugin hook (line 100),
one transport call (`self.session.request`), a backoff sleep
(`asyncio.sleep(2**attempt)`), the cache write (`self.cache.set`, line 183)
and the `on_response` plugin hook (line 186). -/
inductive Ev : Type where
  | cacheCheck : Ev
  | hookReq : Ev
  | netAttempt : Ev
  | slept : Nat → Ev
  | cacheWrite : Ev
  | hookResp : Ev
deriving DecidableEq

/-- What one transport call (`session.request` + `response.json()`) yields:
a status, a decoded JSON body and response headers.  An
`aiohttp.ClientError` (connection error, client error, bad payload) is the
`Except.error` case. -/
structure TranspResp where
  status : Int
  data : PyVal
  headers : List (String × String)

/-- Outcome of `_make_request`: the `RuntimeError` for a missing session,
a normal `APIResponse`, a propagated `aiohttp.ClientError` after the last
attempt, the `AttributeError` from `data.items()` when a hook supplied
files but `data is None`, or the implicit `None` return when
`max_retries == 0` makes the loop body never run. -/
inductive MRResult : Type where
  | notInit : MRResult
  | ok : APIResponse → MRResult
  | clientError : MRResult
  | attrError : MRResult
  | fellThrough : MRResult

/-- The environment a `_make_request` call runs in: client config fields it
reads, the cache store, the clock, what the `on_request` hooks return
(`files` or nothing), and the transport behaviour per attempt index. -/
structure ClientEnv where
  cacheCfg : CacheConfig
  max_retries : Nat
  base_url : String
  store : CacheStore
  now : Int
  elapsed : Int
  hookFiles : Bool
  transport : Nat → Except Unit TranspResp

/-- `APIResponse` built from a transport response (client.py lines 148-157 /
171-180). -/
def apiResponseOf (env : ClientEnv) (t : TranspResp) : APIResponse :=
  { status_code := t.status, data := t.data, headers := t.headers, elapsed := env.elapsed }

/--
The retry loop `for attempt in range(self.config.max_retries)` (client.py
lines 115-194), started at `attempt`.  Per iteration: with hook-supplied
files and `data is None`, `data.items()` raises before any transport call;
otherwise one transport call happens.  On success an `APIResponse` is built,
a successful `GET` is cached (regular branch only — the file-upload branch
never writes the cache), the `on_response` hook runs and the response is
returned.  On `aiohttp.ClientError` the last attempt re-raises, earlier ones
sleep `2**attempt` and retry.
-/
def attemptLoop (env : ClientEnv) (method url : String)
    (params data : Option PyDict) (use_cache : Bool)
    (attempt : Nat) : MRResult × List Ev × CacheStore :=
  if _h : attempt < env.max_retries then
    if env.hookFiles ∧ data.isNone then (.attrError, [], env.store)
    else
      match env.transport attempt with
      | .ok t =>
          let api_response := apiResponseOf env t
          if env.hookFiles then
            (.ok api_response, [.netAttempt, .hookResp], env.store)
          else
            if method = "GET" ∧ use_cache ∧ t.status = 200 then
              (.ok api_response, [.netAttempt, .cacheWrite, .hookResp],
               cache_set env.cacheCfg env.store env.now method url api_response params Option.none)
            else
              (.ok api_response, [.netAttempt, .hookResp], env.store)
      | .error _ =>
          if attempt = env.max_retries - 1 then (.clientError, [.netAttempt], env.store)
          else
            let rest := attemptLoop env method url params data use_cache (attempt + 1)
            (rest.1, .netAttempt :: .slept (2 ^ attempt) :: rest.2.1, rest.2.2)
  else (.fellThrough, [], env.store)
termination_by env.max_retries - attempt

/--
`APIClient._make_request(method, path, params, data, headers, show_progress,
use_cache)`.  Returns the outcome, the event trace in order, and the cache
store afterwards.  Header assembly and the progress display have no
observable effect on the claims and are not traced.
-/
def make_request (env : ClientEnv) (method path : String)
    (params data : Option PyDict) (use_cache : Bool)
    (sessionInit : Bool) : MRResult × List Ev × CacheStore :=
  if !sessionInit then (.notInit, [], env.store)
  else
    let url := env.base_url ++ path
    -- Check cache first (lines 94-97)
    if use_cache ∧ pyUpper method = "GET" then
      match cache_get env.cacheCfg env.store env.now method url params Option.none with
      | (Option.some cached, store') => (.ok cached, [.cacheCheck], store')
      | (Option.none, store') =>
          let env' := { env with store := store' }
          let rest := attemptLoop env' method url params data use_cache 0
          (rest.1, .cacheCheck :: .hookReq :: rest.2.1, rest.2.2)
    else
      let rest := attemptLoop env method url params data use_cache 0
      (rest.1, .hookReq :: rest.2.1, rest.2.2)

/-! ### `CommandStore` (commandstore.py) -/

/--
`re.search("{(.*)}", s)` as a boolean: is there a `'{'` with a `'}'` after
it, no newline in between (`.` does not match a newline)?  The scan looks
at every `'{'` and checks for a `'}'` in the newline-free rest.
-/
def searchCurly.go : List Char → Bool
  | [] => false
  | c :: rest =>
      if c = '{' then
        if (rest.takeWhile (fun a => a ≠ '\n')).contains '}' then true else searchCurly.go rest
      else searchCurly.go rest

/-- `re.search("{(.*)}", s) is not None`. -/
def searchCurly (s : String) : Bool := searchCurly.go s.data

/-- `re.sub("{|}", "", s)`: drop every brace character. -/
def stripBraces (s : String) : String :=
  String.mk (s.data.filter fun c => c ≠ '{' ∧ c ≠ '}')

/-- Index of the last `'}'` in a character list, if any. -/
def lastCloseBrace (cs : List Char) : Option Nat :=
  (cs.findIdxs (fun c => c = '}')).getLast?

/--
One scanning step of `re.sub("/{.*}", "", s)`, fuelled so that the
recursion is structural (the fuel is the length of the list; every
recursive call strictly shortens the list, so the fuel never runs out on
the initial call).  At a literal `"/{"`, the greedy `.*}` consumes up to
the *last* `'}'` reachable without crossing a newline (`.` does not match a
newline); scanning resumes after the removed match.
-/
def subArgSeg.go : Nat → List Char → List Char
  | 0, cs => cs
  | _ + 1, [] => []
  | fuel + 1, c :: rest =>
      if c = '/' then
        match rest with
        | c2 :: rest2 =>
            if c2 = '{' then
              match lastCloseBrace (rest2.takeWhile (fun a => a ≠ '\n')) with
              | Option.some j => subArgSeg.go fuel (rest2.drop (j + 1))
              | Option.none => c :: subArgSeg.go fuel rest
            else c :: subArgSeg.go fuel rest
        | [] => c :: subArgSeg.go fuel rest
      else c :: subArgSeg.go fuel rest

/-- `re.sub("/{.*}", "", s)` (the `pre_process_fullpath` helper inside
`add_path`, commandstore.py lines 79-83), on character lists. -/
def subArgSeg (cs : List Char) : List Char := subArgSeg.go cs.length cs

/-- `pre_process_fullpath(fullpath)` on strings. -/
def pre_process_fullpath (fullpath : String) : String :=
  String.mk (subArgSeg fullpath.data)

/-- `CommandStore._get_path_list(path)`: `path.split("/")[1:]`. -/
def get_path_list (path : String) : List String :=
  ((splitChar '/' path.data).map String.mk).drop 1

/-- The raw operation config stored on a node (`path_config`): the keys
`add_path` reads from it. -/
structure PathConfig where
  parameters : Option (List Param) := Option.none
  responses : Option (List (String × String)) := Option.none
  summary : Option String := Option.none

/-- One `Node` of the command store (commandstore.py lines 20-42), arena
style: `parent` is the index of the parent node in creation order.  A
Python `is_command` of `None` is modelled as `false` (it is only ever used
as a truth value). -/
structure NodeRec where
  name : String
  fullpath : String
  parent : Option Nat
  is_command : Bool
  config : Option PathConfig
  arguments : List String
  parameters : List Param
  request_method : Option String
  request_url : Option String
  responses : Option (List (String × String))

/-- A fresh node as `Node.__init__` makes it. -/
def mkNode (name fullpath : String) (parent : Option Nat) (is_command : Bool)
    (config : Option PathConfig) : NodeRec :=
  { name := name, fullpath := fullpath, parent := parent, is_command := is_command
    config := config, arguments := [], parameters := []
    request_method := Option.none, request_url := Option.none, responses := Option.none }

/-- The node arena: nodes in creation order, the root first. -/
abbrev Store : Type := List NodeRec

/-- `CommandStore.__init__`: `self.root = Node("/", "/")`. -/
def initStore : Store := [mkNode "/" "/" Option.none false Option.none]

/-- Index lookup with a dummy out-of-range default (never reached on the
indices the functions produce). -/
def nodeAt (st : Store) (i : Nat) : NodeRec := st.getD i (mkNode "" "" Option.none false Option.none)

/-- Indices of the children of node `i`, in creation order (anytree attaches
children in the order the `parent=` keyword was used). -/
def childIdxs (st : Store) (i : Nat) : List Nat :=
  (List.range st.length).filter fun j => (nodeAt st j).parent = Option.some i

/-- Preorder traversal of the subtree rooted at index `i`, fuelled; fuel
`st.length` suffices because every parent index is smaller than its child's
index. -/
def subtreeIdx (st : Store) : Nat → Nat → List Nat
  | 0, _ => []
  | fuel + 1, i => i :: (childIdxs st i).flatMap (subtreeIdx st fuel)

/-- `anytree.PreOrderIter(self.root)` as a list of arena indices. -/
def preorderIdx (st : Store) : List Nat := subtreeIdx st st.length 0

/-- `CommandStore._get_node_by_path(fullpath)` (commandstore.py lines
60-64): first node in preorder whose `fullpath` matches, as an index. -/
def get_node_by_path (st : Store) (fullpath : String) : Option Nat :=
  (preorderIdx st).find? fun i => (nodeAt st i).fullpath == fullpath

/--
One iteration of the `for index in range(0, len(path_list) - 1)` loop of
`add_path` (commandstore.py lines 93-110), acting on `(store, parent)`:
argument segments are skipped; otherwise the canonical prefix path is looked
up and either reused as parent or a new child node is created.
-/
def addInterSeg (path_list : List String) (acc : Store × Nat) (index : Nat) : Store × Nat :=
  let (st, parent) := acc
  let path_item := path_list.getD index ""
  if searchCurly path_item then acc
  else
    let current_path := "/" ++ "/".intercalate (path_list.take (index + 1))
    let current_path := pre_process_fullpath current_path
    match get_node_by_path st current_path with
    | Option.some n => (st, n)
    | Option.none => (st ++ [mkNode path_item current_path (Option.some parent) false Option.none], st.length)

/--
`CommandStore.add_path(path, request_url, request_method, path_config)`
(commandstore.py lines 74-133).  Empty `path_list` returns the store
unchanged (`return False`).  Otherwise the intermediate segments are walked,
the leaf node is reused (updating its `config`) or created with
`is_command=True`, and the leaf's `arguments`, `parameters`,
`request_method`, `request_url` and `responses` are assigned.
-/
def add_path (st : Store) (path request_url request_method : String) (path_config : PathConfig) : Store :=
  let path_list := get_path_list path
  if path_list.isEmpty then st
  else
    let acc := (List.range (path_list.length - 1)).foldl (addInterSeg path_list) (st, 0)
    let st1 := acc.1
    let parent := acc.2
    let path_name := path_list.getLastD ""
    let leafEntry : Store × Nat :=
      match get_node_by_path st1 (pre_process_fullpath path) with
      | Option.some n => (st1.set n { nodeAt st1 n with config := Option.some path_config }, n)
      | Option.none =>
          (st1 ++ [mkNode path_name (pre_process_fullpath path) (Option.some parent) true (Option.some path_config)], st1.length)
    let st2 := leafEntry.1
    let i := leafEntry.2
    st2.set i { nodeAt st2 i with
      arguments := (path_list.filter searchCurly).map stripBraces
      parameters := path_config.parameters.getD []
      request_method := Option.some request_method
      request_url := Option.some request_url
      responses := Option.some (path_config.responses.getD []) }

/-! ### `Swagcli._parse_paths` (cli.py lines 96-124) -/

/--
The normalized swagger config as `_parse_paths` reads it: `paths` is the
ordered `path → {method → operation}` map (Python dicts iterate in
insertion order), `host` is required, `basePath` defaults to `""` and
`schemes` to `["https"]`.
-/
structure SwagConfig where
  host : String
  basePath : Option String := Option.none
  schemes : Option (List String) := Option.none
  paths : List (String × List (String × PathConfig))

/--
`Swagcli._parse_paths` with no include/exclude filters and no prehooks (the
path prehook is the identity and `_should_process_path` is constantly true).
For each path and method: `newpath = f"{path}/{method}"` unless the path has
exactly one method, in which case the bare path is used; then
`add_path(newpath, url, method, conf[method])`.  Returns `none` where the
Python raises an `IndexError` (`schemes[0]` on an empty schemes list).
-/
def parse_paths (config : SwagConfig) : Option Store :=
  match config.schemes.getD ["https"] with
  | [] => Option.none
  | scheme0 :: _ =>
      let baseurl := scheme0 ++ "://" ++ config.host ++ config.basePath.getD ""
      Option.some <| config.paths.foldl (fun st pathConf =>
        let path := pathConf.1
        let conf := pathConf.2
        let url := baseurl ++ path
        conf.foldl (fun st methodConf =>
          let newpath := if conf.length = 1 then path else path ++ "/" ++ methodConf.1
          add_path st newpath url methodConf.1 methodConf.2) st) initStore

/-- Number of nodes with `is_command` set. -/
def countCommands (st : Store) : Nat := (st.filter fun n => n.is_command).length

/-- Spec-side notion of a path-template argument segment: a segment exactly
of the form `\x7bname\x7d` with `name` free of braces and newlines.  Returns the
name. -/
def argNameOf (s : String) : Option String :=
  match s.data with
  | c :: rest =>
      if c = '{' ∧ rest ≠ [] ∧ rest.getLast? = Option.some '}'
          ∧ rest.dropLast.all (fun a => a ≠ '{' ∧ a ≠ '}' ∧ a ≠ '\n') then
        Option.some (String.mk rest.dropLast)
      else Option.none
  | [] => Option.none

/-- One `add_path` call. -/
structure AddCall where
  path : String
  url : String
  method : String
  cfg : PathConfig

/-- A sequence of `add_path` calls applied to a freshly constructed
`CommandStore`. -/
def apply_add_paths (calls : List AddCall) : Store :=
  calls.foldl (fun st c => add_path st c.path c.url c.method c.cfg) initStore

/-- Structural well-formedness of the arena: nonempty with the root (and
only the root) at index 0 carrying fullpath `"/"` and no parent, every
parent created before its child, and all `fullpath`s pairwise distinct. -/
def WF (st : Store) : Prop :=
  st ≠ []
  ∧ (nodeAt st 0).fullpath = "/"
  ∧ (∀ j, j < st.length → ((nodeAt st j).parent = Option.none ↔ j = 0))
  ∧ (∀ j i, j < st.length → (nodeAt st j).parent = Option.some i → i < j)
  ∧ (st.map fun n => n.fullpath).Nodup

/-- The effective path strings `_parse_paths` hands to `add_path`, in
order: `path/method`, or the bare path when it has exactly one method. -/
def effective_paths (config : SwagConfig) : List String :=
  config.paths.flatMap fun pc =>
    pc.2.map fun mc => if pc.2.length = 1 then pc.1 else pc.1 ++ "/" ++ mc.1

/-- The number of (path, method) pairs in the config. -/
def pairCount (config : SwagConfig) : Nat :=
  (config.paths.flatMap fun pc => pc.2).length

/-- The canonical fullpaths of the intermediate (navigation) nodes
`add_path` would create for a path: one per non-argument segment before the
last. -/
def inter_canons (newpath : String) : List String :=
  let pl := get_path_list newpath
  (List.range (pl.length - 1)).filterMap fun i =>
    if searchCurly (pl.getD i "") then Option.none
    else Option.some (pre_process_fullpath ("/" ++ "/".intercalate (pl.take (i + 1))))

/-- The `add_path` calls `_parse_paths` makes, flattened in order, given the
scheme actually used for the base url. -/
def callsOf (config : SwagConfig) (scheme0 : String) : List AddCall :=
  config.paths.flatMap fun pc =>
    pc.2.map fun mc =>
      { path := if pc.2.length = 1 then pc.1 else pc.1 ++ "/" ++ mc.1
        url := scheme0 ++ "://" ++ config.host ++ config.basePath.getD "" ++ pc.1
        method := mc.1
        cfg := mc.2 }

/-! ### Concrete objects used by counterexamples and witnesses -/

/-- A concrete response. -/
def respA : APIResponse := { status_code := 200, data := PyVal.none, headers := [], elapsed := 1 }

/-- A cache configuration with caching on and a negative ttl (`ttl : int` in
`CacheConfig` admits this). -/
def negTtlCfg : CacheConfig := { enabled := true, ttl := -1 }

/-- A cache configuration with caching on and `ttl = 0`: diskcache treats a
`set` with `expire=0` as already expired at the very instant it is stored. -/
def zeroTtlCfg : CacheConfig := { enabled := true, ttl := 0 }

/-- A cache configuration with caching on and the default ttl. -/
def posTtlCfg : CacheConfig := { enabled := true, ttl := 300 }

/-- A live cache entry for `GET b/p` written at time 0. -/
def entryA : CacheEntry :=
  { key := get_cache_key "GET" "b/p" Option.none Option.none
    expireAt := 300, timestamp := 0, payload := .respDump respA }

/-- A client environment whose transport always fails and whose cache holds
`entryA`. -/
def envA : ClientEnv :=
  { cacheCfg := posTtlCfg, max_retries := 3, base_url := "b", store := [entryA]
    now := 0, elapsed := 0, hookFiles := false, transport := fun _ => .error () }

/-- A client environment with an empty cache and a transport that always
fails, `max_retries = 2`. -/
def envB : ClientEnv :=
  { cacheCfg := posTtlCfg, max_retries := 2, base_url := "b", store := []
    now := 0, elapsed := 0, hookFiles := false, transport := fun _ => .error () }

/-- A config with a single parameterized path (used to refute C1 as
frozen). -/
def cfgArgPath : SwagConfig :=
  { host := "h", paths := [("/a/\x7bx\x7d", [("get", {})])] }

/-- A config with three (path, method) pairs and no canonical collisions. -/
def cfgPetUser : SwagConfig :=
  { host := "h"
    paths := [("/pet", [("get", {})]), ("/user", [("get", {}), ("post", {})])] }

/-! ## Theorems -/

/-! ### Sorting helper lemmas for the `sort_keys=True` model -/

instance : IsTotal (String × String) keyLE := ⟨fun a b => le_total a.1 b.1⟩

instance : IsTrans (String × String) keyLE := ⟨fun _ _ _ h1 h2 => le_trans h1 h2⟩

/-- Strict key order on rendered entries. -/
def keyLT (a b : String × String) : Prop := a.1 < b.1

instance : IsAntisymm (String × String) keyLT :=
  ⟨fun _ _ h1 h2 => absurd h2 (not_lt.mpr (le_of_lt h1))⟩

theorem sorted_keyLT_of_sorted_keyLE {l : List (String × String)}
    (hs : l.Sorted keyLE) (hnd : (l.map Prod.fst).Nodup) : l.Sorted keyLT := by
  have hnd' : l.Pairwise (fun a b : String × String => a.1 ≠ b.1) :=
    (List.pairwise_map).mp hnd
  exact (hs.and hnd').imp (fun h => lt_of_le_of_ne h.1 h.2)

theorem insertionSort_eq_of_perm {l1 l2 : List (String × String)}
    (hp : l1.Perm l2) (hnd : (l1.map Prod.fst).Nodup) :
    l1.insertionSort keyLE = l2.insertionSort keyLE := by
  have hperm : (l1.insertionSort keyLE).Perm (l2.insertionSort keyLE) :=
    ((List.perm_insertionSort keyLE l1).trans hp).trans (List.perm_insertionSort keyLE l2).symm
  have hnd1 : ((l1.insertionSort keyLE).map Prod.fst).Nodup :=
    (((List.perm_insertionSort keyLE l1).map Prod.fst).nodup_iff).mpr hnd
  have hnd2 : ((l2.insertionSort keyLE).map Prod.fst).Nodup :=
    (((List.perm_insertionSort keyLE l2).map Prod.fst).nodup_iff).mpr
      (((hp.map Prod.fst).nodup_iff).mp hnd)
  exact List.eq_of_perm_of_sorted hperm
    (sorted_keyLT_of_sorted_keyLE (List.sorted_insertionSort keyLE l1) hnd1)
    (sorted_keyLT_of_sorted_keyLE (List.sorted_insertionSort keyLE l2) hnd2)

theorem dumpEntries_eq_map (l : List (String × PyVal)) :
    dumpEntries l = l.map fun kv => (kv.1, dumpVal kv.2) := by
  induction l with
  | nil => rfl
  | cons kv t ih => simp [dumpEntries, ih]

theorem dumpDict_eq_of_perm {d1 d2 : PyDict} (hp : d1.Perm d2)
    (hnd : (d1.map Prod.fst).Nodup) : dumpDict d1 = dumpDict d2 := by
  have hpe : (dumpEntries d1).Perm (dumpEntries d2) := by
    rw [dumpEntries_eq_map, dumpEntries_eq_map]; exact hp.map _
  have hke : ((dumpEntries d1).map Prod.fst).Nodup := by
    rw [dumpEntries_eq_map, List.map_map]
    simpa [Function.comp] using hnd
  simp only [dumpDict, dumpVal]
  rw [insertionSort_eq_of_perm hpe hke]

/-- Truthiness of a dict argument is invariant under permutation. -/
theorem pyDictTruthy_perm {d1 d2 : PyDict} (hp : d1.Perm d2) :
    pyDictTruthy (Option.some d1) = pyDictTruthy (Option.some d2) := by
  have hl := hp.length_eq
  cases d1 <;> cases d2 <;> simp_all [pyDictTruthy]

/--
**C10.** The cache key (`Cache._get_cache_key`) does not distinguish a
`None` params/data argument from an empty dict, and it is invariant under
reordering the entries of a params/data dict with distinct keys; hence such
requests alias the same cache entry (`Cache.get` / `Cache.set` behave
identically on them).
-/
theorem C10_cache_key_normalization (method url : String) (pp dd : Option PyDict)
    (p1 p2 d1 d2 : PyDict)
    (hpp : p1.Perm p2) (hpk : (p1.map Prod.fst).Nodup)
    (hdp : d1.Perm d2) (hdk : (d1.map Prod.fst).Nodup) :
    get_cache_key method url Option.none dd = get_cache_key method url (Option.some []) dd
    ∧ get_cache_key method url pp Option.none = get_cache_key method url pp (Option.some [])
    ∧ get_cache_key method url (Option.some p1) dd = get_cache_key method url (Option.some p2) dd
    ∧ get_cache_key method url pp (Option.some d1) = get_cache_key method url pp (Option.some d2)
    ∧ (∀ cfg store now,
        cache_get cfg store now method url (Option.some p1) dd
          = cache_get cfg store now method url (Option.some p2) dd)
    ∧ (∀ cfg store now r,
        cache_set cfg store now method url r (Option.some p1) dd
          = cache_set cfg store now method url r (Option.some p2) dd) := by
  have hkey : ∀ ddx : Option PyDict,
      get_cache_key method url (Option.some p1) ddx = get_cache_key method url (Option.some p2) ddx := by
    intro ddx
    simp only [get_cache_key, pyDictTruthy_perm hpp, Option.getD]
    rw [dumpDict_eq_of_perm hpp hpk]
  have hkeyd : ∀ ppx : Option PyDict,
      get_cache_key method url ppx (Option.some d1) = get_cache_key method url ppx (Option.some d2) := by
    intro ppx
    simp only [get_cache_key, pyDictTruthy_perm hdp, Option.getD]
    rw [dumpDict_eq_of_perm hdp hdk]
  refine ⟨by simp [get_cache_key, pyDictTruthy], by simp [get_cache_key, pyDictTruthy],
    hkey dd, hkeyd pp, ?_, ?_⟩
  · intro cfg store now
    simp only [cache_get, hkey dd]
  · intro cfg store now r
    simp only [cache_set, hkey dd]

/-- Witness for C10 at a concrete reordered dict. -/
theorem C10_cache_key_normalization_witness :
    get_cache_key "GET" "u" (Option.some [("b", PyVal.int 1), ("a", PyVal.int 2)]) Option.none
      = get_cache_key "GET" "u" (Option.some [("a", PyVal.int 2), ("b", PyVal.int 1)]) Option.none := by
  have h := C10_cache_key_normalization "GET" "u" Option.none Option.none
    [("b", PyVal.int 1), ("a", PyVal.int 2)] [("a", PyVal.int 2), ("b", PyVal.int 1)]
    [] [] (List.Perm.swap ("a", PyVal.int 2) ("b", PyVal.int 1) [])
    (by decide) (List.Perm.refl []) (by decide)
  exact h.2.2.1

/--
**C9.** With caching disabled, `Cache.get` returns `None` for every key and
every store (even when the store holds entries written earlier while
enabled), and neither `Cache.get` nor `Cache.set` changes the store.
-/
theorem C9_disabled_cache_inert (cfg : CacheConfig) (hdis : cfg.enabled = false)
    (store : CacheStore) (now : Int) (method url : String)
    (params data : Option PyDict) (r : APIResponse) :
    cache_get cfg store now method url params data = (Option.none, store)
    ∧ cache_set cfg store now method url r params data = store := by
  constructor
  · simp [cache_get, hdis]
  · simp [cache_set, hdis]

/-- Witness for C9: a disabled cache over a non-trivial store. -/
theorem C9_disabled_cache_inert_witness :
    cache_get { enabled := false, ttl := 300 } [entryA] 0 "GET" "b/p" Option.none Option.none
      = (Option.none, [entryA])
    ∧ cache_set { enabled := false, ttl := 300 } [entryA] 0 "GET" "b/p" respA Option.none Option.none
      = [entryA] :=
  C9_disabled_cache_inert { enabled := false, ttl := 300 } rfl [entryA] 0 "GET" "b/p"
    Option.none Option.none respA

/--
**C4 (amended).** For every enabled cache whose `ttl` is *positive*,
`Cache.set` of a response `v` followed immediately by `Cache.get` with the
same key arguments returns `v`, and once more than `ttl` seconds have
elapsed since the set, `Cache.get` returns `None`.  (The claim as frozen
quantifies over *every* enabled cache; `ttl : int` admits `ttl ≤ 0`, and
already at `ttl = 0` the entry is expired at the instant it is stored —
diskcache only serves entries whose expire time is strictly in the
future — so the immediate round-trip fails; see the counterexample.)
-/
theorem C4_cache_roundtrip (cfg : CacheConfig) (hen : cfg.enabled = true)
    (httl : 0 < cfg.ttl) (store : CacheStore) (now : Int) (method url : String)
    (params data : Option PyDict) (v : APIResponse) :
    (cache_get cfg (cache_set cfg store now method url v params data) now
        method url params data).1 = Option.some v
    ∧ ∀ now2 : Int, now2 - now > cfg.ttl →
      (cache_get cfg (cache_set cfg store now method url v params data) now2
          method url params data).1 = Option.none := by
  have hset : cache_set cfg store now method url v params data
      = { key := get_cache_key method url params data, expireAt := now + cfg.ttl
          timestamp := now, payload := .respDump v }
        :: storeDelete store (get_cache_key method url params data) := by
    simp [cache_set, hen, storeSet]
  constructor
  · rw [hset]
    simp only [cache_get, hen, Bool.not_true, Bool.false_eq_true, if_false, storeLookup,
      List.find?, beq_self_eq_true, if_pos]
    rw [if_neg (by omega)]
    simp only
    rw [if_neg (by omega)]
  · intro now2 h2
    rw [hset]
    simp only [cache_get, hen, Bool.not_true, Bool.false_eq_true, if_false, storeLookup,
      List.find?, beq_self_eq_true, if_pos]
    rw [if_pos (by omega)]

/-- Witness for C4 at a concrete enabled cache with `ttl = 300`. -/
theorem C4_cache_roundtrip_witness :
    (cache_get posTtlCfg (cache_set posTtlCfg [] 0 "GET" "u" respA Option.none Option.none) 0
        "GET" "u" Option.none Option.none).1 = Option.some respA
    ∧ (cache_get posTtlCfg (cache_set posTtlCfg [] 0 "GET" "u" respA Option.none Option.none) 301
        "GET" "u" Option.none Option.none).1 = Option.none := by
  have h := C4_cache_roundtrip posTtlCfg rfl (by decide) [] 0 "GET" "u"
    Option.none Option.none respA
  exact ⟨h.1, h.2 301 (by decide)⟩

/--
**C4 (counterexample).** The claim as frozen fails for enabled caches with
`ttl = -1` and with `ttl = 0` (both admitted by `ttl : int`): `set`
immediately followed by `get` with the same key arguments returns `None`,
not the stored response, because the diskcache expire time `now + ttl` is
not strictly in the future (and for `ttl = -1` the lazy
`now - timestamp > ttl` check fires as well).
-/
theorem C4_cache_roundtrip_counterexample :
    (cache_get negTtlCfg (cache_set negTtlCfg [] 0 "GET" "u" respA Option.none Option.none) 0
        "GET" "u" Option.none Option.none).1 = Option.none
    ∧ (cache_get zeroTtlCfg (cache_set zeroTtlCfg [] 0 "GET" "u" respA Option.none Option.none) 0
        "GET" "u" Option.none Option.none).1 = Option.none
    ∧ Option.none ≠ Option.some respA := by
  refine ⟨rfl, rfl, ?_⟩
  intro h; cases h

/--
**C5 (counterexample).** The claim as frozen says a slot entry is bound to
the value under the exact name whenever that name is present in the map.
For the slot entry `"X"` and the map `{"X": 0, "x": 5}` the exact name is
present with value `0`, but `_update_payload_value` binds `5`: the code
tests `if not arg_value`, so a present-but-falsy exact-name value falls
through to the lower-cased lookup.
-/
theorem C5_binding_counterexample :
    update_payload_value [("query", [("X", PyVal.none)])]
        [("X", PyVal.int 0), ("x", PyVal.int 5)]
      = [("query", [("X", PyVal.int 5)])]
    ∧ specResolveClaimed [("X", PyVal.int 0), ("x", PyVal.int 5)] "X" = PyVal.int 0
    ∧ PyVal.int 5 ≠ PyVal.int 0 := by
  refine ⟨rfl, rfl, ?_⟩
  intro h
  simp at h

/--
**C5 (amended).** At invocation time each slot entry with parameter name
`n` is bound to the map's value under the exact name `n` when that value is
present *and truthy*; otherwise to the value under the lower-cased name
(null when that is also absent).  Slot kinds and entry order are preserved.
-/
theorem C5_binding_amended (payload : Payload) (value_map : PyDict) :
    update_payload_value payload value_map
      = payload.map fun slot =>
          (slot.1, slot.2.map fun arg => (arg.1, specResolveAmended value_map arg.1)) := by
  unfold update_payload_value
  refine List.map_congr_left fun slot _ => ?_
  refine congrArg _ (List.map_congr_left fun arg _ => ?_)
  unfold specResolveAmended
  cases h : (valueMapGet value_map arg.1).truthy <;> simp [h]

/--
**C7.** For a parameter of type `"array"` (with an `items` dict, and no
top-level `enum`/`default`/`description` that would otherwise persist into
the element options), `_get_param_options` sets `multiple = true`, reads
the element-level `type`/`enum`/`default`/`description` from `items` —
mapping `integer → int`, `string → str`, anything else `→ str`, and
rendering a present `enum` as a choice set — and coerces a non-list default
into a single-element list.
-/
theorem C7_array_param_options (p : Param) (items : ParamFields)
    (harr : p.fields.type = Option.some "array")
    (hitems : p.items = Option.some items)
    (hpe : optListTruthy p.fields.enum = false)
    (hpd : optValTruthy p.fields.default = false)
    (hph : optStrTruthy p.fields.description = false) :
    ∃ kw, get_param_options p = Option.some kw
    ∧ kw.required = p.required
    ∧ kw.multiple = true
    ∧ (∀ et, items.type = Option.some et → et ≠ "" →
        optListTruthy items.enum = false → kw.type = Option.some (data_type_map et))
    ∧ (∀ es, items.enum = Option.some es → es ≠ [] → kw.type = Option.some (.cChoice es))
    ∧ (∀ d, items.default = Option.some d → d.truthy = true →
        kw.default = Option.some (if d.isList then d else PyVal.list [d]))
    ∧ (optValTruthy items.default = false → kw.default = Option.none)
    ∧ (∀ ds, items.description = Option.some ds → ds ≠ "" → kw.help = Option.some ds) := by
  have h1 : prepare_args {} p.fields
      = { type := Option.some "array", enum := Option.none
          description := Option.none, default := Option.none } := by
    have htt : optStrTruthy (Option.some "array") = true := rfl
    simp [prepare_args, harr, hpe, hpd, hph, htt]
  have h2 : prepare_args
      { type := Option.some "array", enum := Option.none
        description := Option.none, default := Option.none } items
      = { type := if optStrTruthy items.type then items.type else Option.some "array"
          enum := if optListTruthy items.enum then items.enum else Option.none
          description := if optStrTruthy items.description then items.description else Option.none
          default := if optValTruthy items.default then items.default else Option.none } := rfl
  simp only [get_param_options, h1, hitems, h2]
  refine ⟨_, rfl, rfl, rfl, ?_, ?_, ?_, ?_, ?_⟩
  · -- element type from items, no enum
    intro et het hetne hienf
    rw [het, hienf]
    have : optStrTruthy (Option.some et) = true := by simpa [optStrTruthy] using hetne
    simp only [this, if_true, if_false, Bool.false_eq_true]
    cases hdf : (if optValTruthy items.default then items.default else Option.none) with
    | none => simp
    | some d => cases hl : d.isList <;> simp [hl]
  · -- enum rendered as a choice set
    intro es hes hesne
    rw [hes]
    have : optListTruthy (Option.some es) = true := by
      simpa [optListTruthy, List.isEmpty_iff] using hesne
    simp only [this, if_true]
    have htype : (if optStrTruthy items.type then items.type else Option.some "array") ≠ Option.none := by
      cases items.type
      · simp [optStrTruthy]
      · simp only [optStrTruthy]
        split <;> simp
    cases hdf : (if optValTruthy items.default then items.default else Option.none) with
    | none =>
        cases hts : (if optStrTruthy items.type then items.type else Option.some "array") with
        | none => exact absurd hts htype
        | some t => simp
    | some d =>
        cases hts : (if optStrTruthy items.type then items.type else Option.some "array") with
        | none => exact absurd hts htype
        | some t => cases hl : d.isList <;> simp [hl]
  · -- truthy non-list default coerced to a singleton list
    intro d hd hdt
    rw [hd]
    have : optValTruthy (Option.some d) = true := hdt
    simp only [this, if_true]
    cases hl : d.isList <;> simp [hl]
  · -- no truthy default anywhere: no default in the options
    intro hdf
    simp [hdf]
  · -- description becomes help
    intro ds hds hdsne
    rw [hds]
    have : optStrTruthy (Option.some ds) = true := by simpa [optStrTruthy] using hdsne
    simp only [this, if_true]
    cases hdf : (if optValTruthy items.default then items.default else Option.none) with
    | none => simp
    | some d => cases hl : d.isList <;> simp [hl]

/-- Witness for C7: the spec's scenario parameter
`{"name": "tags", "in": "query", "type": "array", "items": {"type": "string"}}`
yields `multiple = true` and element type `str`. -/
theorem C7_array_param_options_witness :
    ∃ kw, get_param_options
        { name := "tags", in_ := Option.some "query"
          fields := { type := Option.some "array" }
          items := Option.some { type := Option.some "string" } }
      = Option.some kw
    ∧ kw.multiple = true ∧ kw.type = Option.some ClickType.cStr := by
  obtain ⟨kw, hkw, _, hmul, htype, _⟩ :=
    C7_array_param_options
      { name := "tags", in_ := Option.some "query"
        fields := { type := Option.some "array" }
        items := Option.some { type := Option.some "string" } }
      { type := Option.some "string" } rfl rfl rfl rfl rfl
  refine ⟨kw, hkw, hmul, ?_⟩
  have := htype "string" rfl (by decide) rfl
  simpa [data_type_map] using this

/-- With a transport that fails on every attempt (and no file-upload
crash), the retry loop started at attempt `a < max_retries` performs the
remaining attempts, sleeping `2^i` after every failed attempt `i` except
the last, and propagates the client error. -/
theorem attemptLoop_allfail (env : ClientEnv) (method url : String)
    (params data : Option PyDict) (use_cache : Bool)
    (hfail : ∀ i, env.transport i = .error ())
    (hfiles : env.hookFiles = false ∨ data.isNone = false) :
    ∀ a, a < env.max_retries →
    attemptLoop env method url params data use_cache a
      = (.clientError,
         (List.range' a (env.max_retries - 1 - a)).flatMap
           (fun i => [Ev.netAttempt, Ev.slept (2 ^ i)]) ++ [Ev.netAttempt],
         env.store) := by
  have hnofiles : ¬ (env.hookFiles = true ∧ data.isNone = true) := by
    rcases hfiles with h | h <;> simp [h]
  suffices H : ∀ k a, env.max_retries - 1 - a = k → a < env.max_retries →
      attemptLoop env method url params data use_cache a
        = (.clientError,
           (List.range' a (env.max_retries - 1 - a)).flatMap
             (fun i => [Ev.netAttempt, Ev.slept (2 ^ i)]) ++ [Ev.netAttempt],
           env.store) by
    intro a ha; exact H _ a rfl ha
  intro k
  induction k with
  | zero =>
      intro a hk ha
      have ha' : a = env.max_retries - 1 := by omega
      rw [attemptLoop]
      rw [dif_pos ha, if_neg hnofiles, hfail a]
      simp only [if_pos ha', hk, List.range'_zero, List.flatMap_nil, List.nil_append]
  | succ k ih =>
      intro a hk ha
      have ha1 : a + 1 < env.max_retries := by omega
      have hne : ¬ (a = env.max_retries - 1) := by omega
      rw [attemptLoop]
      rw [dif_pos ha, if_neg hnofiles, hfail a, if_neg hne]
      rw [ih (a + 1) (by omega) ha1]
      have hr : env.max_retries - 1 - a = (env.max_retries - 1 - (a + 1)) + 1 := by omega
      rw [hr, List.range'_succ, List.flatMap_cons]
      simp

/--
**C2.** With `max_retries = R ≥ 1` and a transport that raises a
client/connection error on every attempt (no cache hit short-circuits the
call, and no hook-supplied file upload turns it into an unrelated
`AttributeError`), `_make_request` performs exactly `R` transport attempts,
sleeps `2^attempt` seconds after each failed attempt except the last, and
after the `R`-th failure propagates the error to the caller with no further
retry: the event trace ends `netAttempt, slept 2^0, netAttempt, slept 2^1,
…, netAttempt` with `R` attempts and `R-1` sleeps.
-/
theorem C2_retry_bound (env : ClientEnv) (method path : String)
    (params data : Option PyDict) (use_cache : Bool)
    (hR : 1 ≤ env.max_retries)
    (hfail : ∀ i, env.transport i = .error ())
    (hfiles : env.hookFiles = false ∨ data.isNone = false)
    (hmiss : use_cache ∧ pyUpper method = "GET" →
      (cache_get env.cacheCfg env.store env.now method (env.base_url ++ path)
        params Option.none).1 = Option.none) :
    (make_request env method path params data use_cache true).1 = .clientError
    ∧ (make_request env method path params data use_cache true).2.1
      = (if use_cache ∧ pyUpper method = "GET" then [Ev.cacheCheck] else [])
        ++ Ev.hookReq
        :: ((List.range (env.max_retries - 1)).flatMap
              (fun i => [Ev.netAttempt, Ev.slept (2 ^ i)]) ++ [Ev.netAttempt]) := by
  by_cases hc : use_cache ∧ pyUpper method = "GET"
  · have hm := hmiss hc
    rcases hres : cache_get env.cacheCfg env.store env.now method (env.base_url ++ path)
      params Option.none with ⟨res, store'⟩
    rw [hres] at hm
    simp only at hm
    subst hm
    have h := attemptLoop_allfail { env with store := store' } method (env.base_url ++ path)
      params data use_cache hfail hfiles 0 hR
    simp only [make_request, Bool.not_true, Bool.false_eq_true, if_false, if_pos hc, hres, h,
      List.range_eq_range', Nat.sub_zero]
    simp
  · have h := attemptLoop_allfail env method (env.base_url ++ path) params data use_cache
      hfail hfiles 0 (by omega)
    simp only [make_request, Bool.not_true, Bool.false_eq_true, if_false, if_neg hc, h,
      List.range_eq_range', Nat.sub_zero]
    simp

/-- Witness for C2: `max_retries = 2` and an always-failing transport give
exactly two attempts with one `2^0`-second sleep in between, then the error
propagates. -/
theorem C2_retry_bound_witness :
    (make_request envB "POST" "/p" Option.none Option.none false true).1 = MRResult.clientError
    ∧ (make_request envB "POST" "/p" Option.none Option.none false true).2.1
      = [Ev.hookReq, Ev.netAttempt, Ev.slept 1, Ev.netAttempt] := by
  have h := C2_retry_bound envB "POST" "/p" Option.none Option.none false (by decide)
    (fun _ => rfl) (Or.inl rfl) (fun hcon => by simp at hcon)
  refine ⟨h.1, ?_⟩
  rw [h.2]
  rfl

/--
**C3 (counterexample).** The claim says `on_request` is invoked before the
cache is consulted on every invocation.  In `_make_request` the cache
lookup (line 95) precedes the `on_request` hook (line 100): for a GET with
caching enabled and a live cached entry, the call returns the cached
response with trace `[cacheCheck]` — the hook is never invoked at all.
-/
theorem C3_hook_after_cache_counterexample :
    make_request envA "GET" "/p" Option.none Option.none true true
      = (MRResult.ok respA, [Ev.cacheCheck], [entryA])
    ∧ Ev.hookReq ∉ [Ev.cacheCheck] := by
  exact ⟨rfl, by decide⟩

/--
**C3 (amended).** On every invocation of `_make_request`, the cache is
consulted *before* the `on_request` hook: for a GET with caching enabled,
(a) when a live cached entry exists the cached response is returned with
trace `[cacheCheck]` — no hook invocation and no network call; (b) on a
miss the trace starts `cacheCheck, hookReq, …`, so the hook still runs
before any network attempt; (c) for all other requests no cache check
occurs and the trace starts with the hook.
-/
theorem C3_cache_checked_before_hook (env : ClientEnv) (method path : String)
    (params data : Option PyDict) (use_cache : Bool) :
    (∀ r store',
      use_cache ∧ pyUpper method = "GET" →
      cache_get env.cacheCfg env.store env.now method (env.base_url ++ path) params Option.none
        = (Option.some r, store') →
      make_request env method path params data use_cache true = (.ok r, [Ev.cacheCheck], store'))
    ∧ ((use_cache ∧ pyUpper method = "GET") →
       (cache_get env.cacheCfg env.store env.now method (env.base_url ++ path)
           params Option.none).1 = Option.none →
       ∃ tail, (make_request env method path params data use_cache true).2.1
         = Ev.cacheCheck :: Ev.hookReq :: tail)
    ∧ (¬ (use_cache ∧ pyUpper method = "GET") →
       ∃ tail, (make_request env method path params data use_cache true).2.1
         = Ev.hookReq :: tail) := by
  refine ⟨?_, ?_, ?_⟩
  · intro r store' hc hres
    simp only [make_request, Bool.not_true, Bool.false_eq_true, if_false, if_pos hc, hres]
  · intro hc hm
    rcases hres : cache_get env.cacheCfg env.store env.now method (env.base_url ++ path)
      params Option.none with ⟨res, store'⟩
    rw [hres] at hm
    simp only at hm
    subst hm
    simp only [make_request, Bool.not_true, Bool.false_eq_true, if_false, if_pos hc, hres]
    exact ⟨_, rfl⟩
  · intro hc
    simp only [make_request, Bool.not_true, Bool.false_eq_true, if_false, if_neg hc]
    exact ⟨_, rfl⟩

/-- Witness for C3 at the concrete environment with a live cached GET. -/
theorem C3_cache_checked_before_hook_witness :
    make_request envA "GET" "/p" Option.none Option.none true true
      = (MRResult.ok respA, [Ev.cacheCheck], [entryA]) :=
  (C3_cache_checked_before_hook envA "GET" "/p" Option.none Option.none true).1
    respA [entryA] (by exact ⟨rfl, rfl⟩) rfl

/-! ### Basic facts about the arena and preorder traversal -/

theorem nodeAt_set_self {st : Store} {i : Nat} (h : i < st.length) (n : NodeRec) :
    nodeAt (st.set i n) i = n := by
  simp [nodeAt, List.getD, List.getElem?_set_self', h]

theorem nodeAt_set_ne {st : Store} {i j : Nat} (h : i ≠ j) (n : NodeRec) :
    nodeAt (st.set i n) j = nodeAt st j := by
  simp [nodeAt, List.getD, List.getElem?_set_ne h]

theorem nodeAt_append_lt {st : Store} {j : Nat} (h : j < st.length) (l : List NodeRec) :
    nodeAt (st ++ l) j = nodeAt st j := by
  simp [nodeAt, List.getD, List.getElem?_append_left h]

theorem nodeAt_append_self (st : Store) (n : NodeRec) :
    nodeAt (st ++ [n]) st.length = n := by
  simp [nodeAt, List.getD, List.getElem?_append_right (Nat.le_refl st.length)]

theorem mem_subtreeIdx_lt (st : Store) :
    ∀ (fuel i j : Nat), i < st.length → j ∈ subtreeIdx st fuel i → j < st.length := by
  intro fuel
  induction fuel with
  | zero => intro i j _ hj; simp [subtreeIdx] at hj
  | succ fuel ih =>
      intro i j hi hj
      simp only [subtreeIdx, List.mem_cons, List.mem_flatMap] at hj
      rcases hj with rfl | ⟨c, hc, hj⟩
      · exact hi
      · have hc' : c < st.length := by
          simp only [childIdxs, List.mem_filter, List.mem_range] at hc
          exact hc.1
        exact ih c j hc' hj

theorem mem_preorderIdx_lt {st : Store} {j : Nat} (hj : j ∈ preorderIdx st) : j < st.length := by
  by_cases h : st.length = 0
  · rw [preorderIdx, h] at hj
    simp [subtreeIdx] at hj
  · exact mem_subtreeIdx_lt st st.length 0 j (Nat.pos_of_ne_zero h) hj

theorem get_node_by_path_some {st : Store} {fp : String} {i : Nat}
    (h : get_node_by_path st fp = Option.some i) :
    i < st.length ∧ (nodeAt st i).fullpath = fp := by
  have hmem := List.find?_some h
  have hmem2 : i ∈ preorderIdx st := List.mem_of_find?_eq_some h
  exact ⟨mem_preorderIdx_lt hmem2, by simpa using hmem⟩

/-! ### C6: path-template arguments recorded on the leaf -/

theorem argNameOf_searchCurly {s : String} {nm : String}
    (h : argNameOf s = Option.some nm) : searchCurly s = true := by
  unfold argNameOf at h
  split at h
  case h_2 => exact absurd h (by simp)
  case h_1 c rest heq =>
    split at h
    case isFalse => exact absurd h (by simp)
    case isTrue hcond =>
      obtain ⟨hc, hne, hlast, hclean⟩ := hcond
      subst hc
      have hlast' : rest.getLast hne = '}' := by
        rw [List.getLast?_eq_getLast_of_ne_nil hne] at hlast
        exact Option.some_injective _ hlast.symm |>.symm
      have hmem : '}' ∈ rest := hlast' ▸ List.getLast_mem hne
      have hallnn : ∀ a ∈ rest, a ≠ '\n' := by
        intro a ha
        have ha' : a ∈ rest.dropLast ++ [rest.getLast hne] := by
          rw [List.dropLast_append_getLast hne]
          exact ha
        rcases List.mem_append.mp ha' with h1 | h1
        · have := of_decide_eq_true (List.all_eq_true.mp hclean a h1)
          exact this.2.2
        · simp only [List.mem_singleton] at h1
          subst h1
          rw [hlast']
          decide
      have htw : rest.takeWhile (fun a => a ≠ '\n') = rest :=
        List.takeWhile_eq_self_iff.mpr (by
          intro a ha
          simpa using hallnn a ha)
      unfold searchCurly
      rw [heq]
      rw [searchCurly.go, if_pos rfl, htw]
      have hcont : rest.contains '}' = true := by
        simpa [List.contains] using hmem
      rw [if_pos hcont]

theorem argNameOf_stripBraces {s : String} {nm : String}
    (h : argNameOf s = Option.some nm) : stripBraces s = nm := by
  unfold argNameOf at h
  split at h
  case h_2 => exact absurd h (by simp)
  case h_1 c rest heq =>
    split at h
    case isFalse => exact absurd h (by simp)
    case isTrue hcond =>
      obtain ⟨hc, hne, hlast, hclean⟩ := hcond
      subst hc
      have hnm : nm = String.mk rest.dropLast := by
        simpa using h.symm
      subst hnm
      have hlast' : rest.getLast hne = '}' := by
        rw [List.getLast?_eq_getLast_of_ne_nil hne] at hlast
        exact Option.some_injective _ hlast.symm |>.symm
      unfold stripBraces
      rw [heq]
      have hsplit : ('{' :: rest).filter (fun a => decide (a ≠ '{' ∧ a ≠ '}'))
          = rest.dropLast := by
        have hstep : ('{' :: rest).filter (fun a => decide (a ≠ '{' ∧ a ≠ '}'))
            = rest.filter (fun a => decide (a ≠ '{' ∧ a ≠ '}')) := by
          simp [List.filter_cons]
        rw [hstep]
        have hrest : rest.filter (fun a => decide (a ≠ '{' ∧ a ≠ '}'))
            = (rest.dropLast ++ [rest.getLast hne]).filter (fun a => decide (a ≠ '{' ∧ a ≠ '}')) := by
          rw [List.dropLast_append_getLast hne]
        rw [hrest, List.filter_append]
        have h1 : rest.dropLast.filter (fun a => decide (a ≠ '{' ∧ a ≠ '}')) = rest.dropLast := by
          apply List.filter_eq_self.mpr
          intro a ha
          have := of_decide_eq_true (List.all_eq_true.mp hclean a ha)
          simp [this.1, this.2.1]
        have h2 : [rest.getLast hne].filter (fun a => decide (a ≠ '{' ∧ a ≠ '}')) = [] := by
          rw [hlast']
          decide
        rw [h1, h2, List.append_nil]
      simpa [stripBraces] using congrArg String.mk hsplit

theorem argNameOf_none_of_not_searchCurly {s : String}
    (h : searchCurly s = false) : argNameOf s = Option.none := by
  cases hal : argNameOf s with
  | none => rfl
  | some nm => rw [argNameOf_searchCurly hal] at h; cases h

theorem filter_strip_eq_filterMap (pl : List String)
    (h : ∀ s ∈ pl, searchCurly s → (argNameOf s).isSome) :
    (pl.filter searchCurly).map stripBraces = pl.filterMap argNameOf := by
  induction pl with
  | nil => rfl
  | cons s t ih =>
      have ht : ∀ x ∈ t, searchCurly x → (argNameOf x).isSome := fun x hx => h x (by simp [hx])
      cases hs : searchCurly s with
      | true =>
          have hsome := h s (by simp) hs
          obtain ⟨nm, hnm⟩ := Option.isSome_iff_exists.mp hsome
          rw [List.filter_cons_of_pos (by simp [hs]), List.map_cons,
            List.filterMap_cons_some hnm, argNameOf_stripBraces hnm, ih ht]
      | false =>
          rw [List.filter_cons_of_neg (by simp [hs]), List.filterMap_cons_none
            (argNameOf_none_of_not_searchCurly hs), ih ht]

/--
**C6.** For every path whose raw segment list contains exactly the
`\x7bname\x7d`-form segments described by `names` (in left-to-right order; all
other segments contain no brace pair), after `add_path` the node recorded
for the path — the node at the path's canonical fullpath — has
`arguments = names`: the `\x7b…\x7d` segment names with braces stripped, in path
order, `names.length` of them.
-/
theorem C6_leaf_arguments (st : Store) (path url method : String) (cfg : PathConfig)
    (names : List String)
    (hne : get_path_list path ≠ [])
    (hseg : ∀ s ∈ get_path_list path, searchCurly s → (argNameOf s).isSome)
    (hnames : (get_path_list path).filterMap argNameOf = names) :
    ∃ i, i < (add_path st path url method cfg).length
      ∧ (nodeAt (add_path st path url method cfg) i).fullpath = pre_process_fullpath path
      ∧ (nodeAt (add_path st path url method cfg) i).arguments = names := by
  have hargs : ((get_path_list path).filter searchCurly).map stripBraces = names := by
    rw [filter_strip_eq_filterMap _ hseg, hnames]
  simp only [add_path]
  rw [if_neg (by simpa [List.isEmpty_iff] using hne)]
  generalize (List.range ((get_path_list path).length - 1)).foldl
    (addInterSeg (get_path_list path)) (st, 0) = acc
  cases hleaf : get_node_by_path acc.1 (pre_process_fullpath path) with
  | some n =>
      obtain ⟨hn, hfp⟩ := get_node_by_path_some hleaf
      have hn2 : n < (acc.1.set n { nodeAt acc.1 n with config := Option.some cfg }).length := by
        simpa using hn
      refine ⟨n, ?_, ?_, ?_⟩
      · simp only [List.length_set]
        simpa using hn
      · rw [nodeAt_set_self hn2]
        simpa [nodeAt_set_self hn] using hfp
      · rw [nodeAt_set_self hn2]
        simpa using hargs
  | none =>
      have hlen : acc.1.length
          < (acc.1 ++ [mkNode ((get_path_list path).getLastD "")
              (pre_process_fullpath path) (Option.some acc.2) true (Option.some cfg)]).length := by
        simp
      refine ⟨acc.1.length, ?_, ?_, ?_⟩
      · simp only [List.length_set]
        exact hlen
      · rw [nodeAt_set_self hlen]
        simp [nodeAt_append_self, mkNode]
      · rw [nodeAt_set_self hlen]
        simpa using hargs

/-- Witness for C6: `/store/order/\x7border\x7d/item/\x7bitemId\x7d` records
`["order", "itemId"]` on the leaf. -/
theorem C6_leaf_arguments_witness :
    ∃ i, i < (add_path initStore "/store/order/\x7border\x7d/item/\x7bitemId\x7d" "u" "get" {}).length
      ∧ (nodeAt (add_path initStore "/store/order/\x7border\x7d/item/\x7bitemId\x7d" "u" "get" {}) i).fullpath
          = pre_process_fullpath "/store/order/\x7border\x7d/item/\x7bitemId\x7d"
      ∧ (nodeAt (add_path initStore "/store/order/\x7border\x7d/item/\x7bitemId\x7d" "u" "get" {}) i).arguments
          = ["order", "itemId"] :=
  C6_leaf_arguments initStore "/store/order/\x7border\x7d/item/\x7bitemId\x7d" "u" "get" {}
    ["order", "itemId"] (by decide) (by decide) (by decide)

/-! ### Well-formedness of the arena under `add_path` -/

theorem WF_initStore : WF initStore := by
  refine ⟨by simp [initStore], rfl, ?_, ?_, by simp [initStore, mkNode]⟩
  · intro j hj
    simp only [initStore, List.length_cons, List.length_nil] at hj
    interval_cases j
    · simp [nodeAt, initStore, mkNode]
  · intro j i hj hp
    simp only [initStore, List.length_cons, List.length_nil] at hj
    interval_cases j
    · simp [nodeAt, initStore, mkNode] at hp

theorem subtreeIdx_mono (st : Store) :
    ∀ {f g : Nat}, f ≤ g → ∀ i, subtreeIdx st f i ⊆ subtreeIdx st g i := by
  intro f
  induction f with
  | zero => intro g _ i; simp [subtreeIdx]
  | succ f ih =>
      intro g hfg i
      obtain ⟨g', rfl⟩ : ∃ g', g = g' + 1 := ⟨g - 1, by omega⟩
      intro j hj
      simp only [subtreeIdx, List.mem_cons, List.mem_flatMap] at hj ⊢
      rcases hj with rfl | ⟨c, hc, hj⟩
      · exact Or.inl rfl
      · exact Or.inr ⟨c, hc, ih (by omega) c hj⟩

theorem mem_subtreeIdx_self (st : Store) {f : Nat} (hf : 0 < f) (i : Nat) :
    i ∈ subtreeIdx st f i := by
  obtain ⟨f', rfl⟩ : ∃ f', f = f' + 1 := ⟨f - 1, by omega⟩
  simp [subtreeIdx]

theorem subtreeIdx_sub_parent (st : Store) {i j : Nat}
    (hj : j < st.length) (hp : (nodeAt st j).parent = Option.some i) :
    ∀ f, subtreeIdx st f j ⊆ subtreeIdx st (f + 1) i := by
  intro f k hk
  have hchild : j ∈ childIdxs st i := by
    simp only [childIdxs, List.mem_filter, List.mem_range]
    exact ⟨hj, by simp [hp]⟩
  simp only [subtreeIdx, List.mem_cons, List.mem_flatMap]
  exact Or.inr ⟨j, hchild, hk⟩

theorem all_visited {st : Store} (hWF : WF st) :
    ∀ j, j < st.length → j ∈ preorderIdx st := by
  obtain ⟨hne, hroot, hpnone, hplt, hnodup⟩ := hWF
  have key : ∀ j, j < st.length → ∃ d, d ≤ j ∧
      ∀ f, subtreeIdx st f j ⊆ subtreeIdx st (f + d) 0 := by
    intro j
    induction j using Nat.strong_induction_on with
    | _ j ih =>
        intro hj
        by_cases h0 : j = 0
        · subst h0
          exact ⟨0, Nat.le_refl 0, fun f => by simp⟩
        · have hpar : (nodeAt st j).parent ≠ Option.none := fun h => h0 ((hpnone j hj).mp h)
          obtain ⟨i, hpi⟩ := Option.ne_none_iff_exists'.mp hpar
          have hij : i < j := hplt j i hj hpi
          obtain ⟨d, hd, hsub⟩ := ih i hij (by omega)
          refine ⟨d + 1, by omega, fun f => ?_⟩
          intro k hk
          have h1 := subtreeIdx_sub_parent st hj hpi f hk
          have h2 := hsub (f + 1) h1
          have : f + 1 + d = f + (d + 1) := by omega
          rwa [this] at h2
  intro j hj
  obtain ⟨d, hd, hsub⟩ := key j hj
  have h1 : j ∈ subtreeIdx st 1 j := mem_subtreeIdx_self st (by omega) j
  have h2 : j ∈ subtreeIdx st (1 + d) 0 := hsub 1 h1
  exact subtreeIdx_mono st (by omega) 0 h2

/-- The fullpath of any in-range node occurs in the fullpath list. -/
theorem fullpath_mem {st : Store} {j : Nat} (hj : j < st.length) :
    (nodeAt st j).fullpath ∈ st.map fun n => n.fullpath := by
  have : nodeAt st j = st[j] := by simp [nodeAt, List.getD_eq_getElem?_getD, List.getElem?_eq_getElem hj]
  rw [this]
  exact List.mem_map_of_mem _ (st.getElem_mem hj)

theorem get_node_by_path_none_iff {st : Store} (hWF : WF st) (fp : String) :
    get_node_by_path st fp = Option.none ↔ fp ∉ st.map fun n => n.fullpath := by
  constructor
  · intro h hmem
    obtain ⟨n, hn, hfp⟩ := List.mem_map.mp hmem
    obtain ⟨j, hj, hje⟩ := List.mem_iff_getElem.mp hn
    have hjlt : j < st.length := hj
    have hvisit := all_visited hWF j hjlt
    have := List.find?_eq_none.mp h j hvisit
    apply this
    have : nodeAt st j = n := by
      simp [nodeAt, List.getD_eq_getElem?_getD, List.getElem?_eq_getElem hjlt, hje]
    simp [this, hfp]
  · intro hmem
    apply List.find?_eq_none.mpr
    intro j hjmem
    have hj := mem_preorderIdx_lt hjmem
    intro hbeq
    apply hmem
    have : (nodeAt st j).fullpath = fp := by simpa using hbeq
    exact this ▸ fullpath_mem hj

theorem map_fullpath_set {st : Store} {i : Nat} (hi : i < st.length) {n : NodeRec}
    (hfp : n.fullpath = (nodeAt st i).fullpath) :
    ((st.set i n).map fun m => m.fullpath) = st.map fun m => m.fullpath := by
  apply List.ext_getElem (by simp)
  intro j h1 h2
  simp only [List.getElem_map, List.getElem_set]
  split
  case isTrue h => subst h; rw [hfp]; simp [nodeAt, List.getD_eq_getElem?_getD, List.getElem?_eq_getElem hi]
  case isFalse h => rfl

theorem nodeAt_set_eq_ite {st : Store} {i j : Nat} (hi : i < st.length) (n : NodeRec) :
    nodeAt (st.set i n) j = if i = j then n else nodeAt st j := by
  split
  case isTrue h => subst h; exact nodeAt_set_self hi n
  case isFalse h => exact nodeAt_set_ne h n

theorem WF_set {st : Store} (hWF : WF st) {i : Nat} (hi : i < st.length) (n : NodeRec)
    (hfp : n.fullpath = (nodeAt st i).fullpath) (hpar : n.parent = (nodeAt st i).parent) :
    WF (st.set i n) := by
  obtain ⟨hne, hroot, hpnone, hplt, hnodup⟩ := hWF
  refine ⟨?_, ?_, ?_, ?_, ?_⟩
  · intro h
    apply hne
    have := congrArg List.length h
    simp at this
    exact this
  · rw [nodeAt_set_eq_ite hi]
    split
    case isTrue h => rw [hfp, h]; exact hroot
    case isFalse h => exact hroot
  · intro j hj
    rw [List.length_set] at hj
    rw [nodeAt_set_eq_ite hi]
    split
    case isTrue h => subst h; rw [hpar]; exact hpnone i hi
    case isFalse h => exact hpnone j hj
  · intro j k hj hk
    rw [List.length_set] at hj
    rw [nodeAt_set_eq_ite hi] at hk
    split at hk
    case isTrue h => subst h; rw [hpar] at hk; exact hplt i k hi hk
    case isFalse h => exact hplt j k hj hk
  · rw [map_fullpath_set hi hfp]
    exact hnodup

theorem WF_append {st : Store} (hWF : WF st) {n : NodeRec} {p : Nat}
    (hp : n.parent = Option.some p) (hplen : p < st.length)
    (hfresh : n.fullpath ∉ st.map fun m => m.fullpath) :
    WF (st ++ [n]) := by
  obtain ⟨hne, hroot, hpnone, hplt, hnodup⟩ := hWF
  have hlpos : 0 < st.length := List.length_pos.mpr hne
  refine ⟨by simp, ?_, ?_, ?_, ?_⟩
  · rw [nodeAt_append_lt hlpos]
    exact hroot
  · intro j hj
    simp only [List.length_append, List.length_cons, List.length_nil] at hj
    by_cases hjl : j < st.length
    · rw [nodeAt_append_lt hjl]
      exact hpnone j hjl
    · have hj' : j = st.length := by omega
      subst hj'
      rw [nodeAt_append_self]
      constructor
      · intro h; rw [hp] at h; cases h
      · intro h; omega
  · intro j k hj hk
    simp only [List.length_append, List.length_cons, List.length_nil] at hj
    by_cases hjl : j < st.length
    · rw [nodeAt_append_lt hjl] at hk
      exact hplt j k hjl hk
    · have hj' : j = st.length := by omega
      subst hj'
      rw [nodeAt_append_self, hp] at hk
      have : k = p := by simpa using hk.symm
      omega
  · rw [List.map_append]
    simp only [List.map_cons, List.map_nil]
    rw [List.nodup_append]
    exact ⟨hnodup, List.nodup_singleton _, by simpa [List.disjoint_right] using hfresh⟩

/-- Invariant of the intermediate-segment loop: well-formedness and a valid
parent index are preserved; no `is_command` node is created or changed; any
new node carries the canonical prefix path of a non-argument loop index and
is not a command. -/
theorem foldl_addInterSeg_inv (pl : List String) :
    ∀ (idxs : List Nat) (st : Store) (p : Nat), WF st → p < st.length →
    WF ((idxs.foldl (addInterSeg pl) (st, p)).1)
    ∧ ((idxs.foldl (addInterSeg pl) (st, p)).2) < ((idxs.foldl (addInterSeg pl) (st, p)).1).length
    ∧ ((idxs.foldl (addInterSeg pl) (st, p)).1).filter (fun n => n.is_command)
        = st.filter (fun n => n.is_command)
    ∧ ∀ m ∈ (idxs.foldl (addInterSeg pl) (st, p)).1, m ∈ st
        ∨ (∃ i ∈ idxs, searchCurly (pl.getD i "") = false
            ∧ m.fullpath = pre_process_fullpath ("/" ++ "/".intercalate (pl.take (i + 1)))
            ∧ m.is_command = false) := by
  intro idxs
  induction idxs with
  | nil => intro st p hWF hp; exact ⟨hWF, hp, rfl, fun m hm => Or.inl hm⟩
  | cons i idxs ih =>
      intro st p hWF hp
      rw [List.foldl_cons]
      have hstep : WF (addInterSeg pl (st, p) i).1
          ∧ (addInterSeg pl (st, p) i).2 < (addInterSeg pl (st, p) i).1.length
          ∧ (addInterSeg pl (st, p) i).1.filter (fun n => n.is_command)
              = st.filter (fun n => n.is_command)
          ∧ ∀ m ∈ (addInterSeg pl (st, p) i).1, m ∈ st
              ∨ (searchCurly (pl.getD i "") = false
                  ∧ m.fullpath = pre_process_fullpath ("/" ++ "/".intercalate (pl.take (i + 1)))
                  ∧ m.is_command = false) := by
        unfold addInterSeg
        dsimp only
        cases hs : searchCurly (pl.getD i "") with
        | true => rw [if_pos rfl]; exact ⟨hWF, hp, by trivial, fun m hm => Or.inl hm⟩
        | false =>
            rw [if_neg (by simp)]
            cases hfind : get_node_by_path st
                (pre_process_fullpath ("/" ++ "/".intercalate (pl.take (i + 1)))) with
            | some n =>
                simp only
                exact ⟨hWF, (get_node_by_path_some hfind).1, by trivial, fun m hm => Or.inl hm⟩
            | none =>
                simp only
                have hfresh := (get_node_by_path_none_iff hWF _).mp hfind
                refine ⟨WF_append hWF rfl hp (by simpa [mkNode] using hfresh), by simp, ?_, ?_⟩
                · rw [List.filter_append]
                  simp [mkNode]
                · intro m hm
                  rcases List.mem_append.mp hm with h1 | h1
                  · exact Or.inl h1
                  · simp only [List.mem_singleton] at h1
                    subst h1
                    exact Or.inr ⟨by trivial, rfl, rfl⟩
      obtain ⟨hWF', hp', hfilter', hmem'⟩ := hstep
      rcases haccs : addInterSeg pl (st, p) i with ⟨st', p'⟩
      rw [haccs] at hWF' hp' hfilter' hmem'
      obtain ⟨h1, h2, h3, h4⟩ := ih st' p' hWF' hp'
      refine ⟨h1, h2, by rw [h3, hfilter'], ?_⟩
      intro m hm
      rcases h4 m hm with hmem | ⟨k, hk, hks, hkfp, hkc⟩
      · rcases hmem' m hmem with h5 | ⟨h5, h6, h7⟩
        · exact Or.inl h5
        · exact Or.inr ⟨i, by simp, h5, h6, h7⟩
      · exact Or.inr ⟨k, by simp [hk], hks, hkfp, hkc⟩

theorem add_path_WF (st : Store) (path url method : String) (cfg : PathConfig)
    (hWF : WF st) : WF (add_path st path url method cfg) := by
  simp only [add_path]
  split
  case isTrue => exact hWF
  case isFalse hne =>
    have hroot0 : (0 : Nat) < st.length := List.length_pos.mpr hWF.1
    obtain ⟨hWF1, hp1, _, _⟩ := foldl_addInterSeg_inv (get_path_list path)
      (List.range ((get_path_list path).length - 1)) st 0 hWF hroot0
    cases hfind : get_node_by_path
        ((List.range ((get_path_list path).length - 1)).foldl
          (addInterSeg (get_path_list path)) (st, 0)).1 (pre_process_fullpath path) with
    | some n =>
        obtain ⟨hn, hnfp⟩ := get_node_by_path_some hfind
        dsimp only
        refine WF_set ?_ ?_ _ ?_ ?_
        · refine WF_set hWF1 hn _ ?_ ?_
          · rfl
          · rfl
        · simpa using hn
        · rfl
        · rfl
    | none =>
        have hfresh := (get_node_by_path_none_iff hWF1 _).mp hfind
        dsimp only
        refine WF_set ?_ ?_ _ ?_ ?_
        · refine WF_append hWF1 ?_ hp1 ?_
          · rfl
          · simpa [mkNode] using hfresh
        · simp
        · rfl
        · rfl

theorem WF_apply_add_paths (calls : List AddCall) : WF (apply_add_paths calls) := by
  unfold apply_add_paths
  have H : ∀ (cs : List AddCall) (st : Store), WF st →
      WF (cs.foldl (fun s c => add_path s c.path c.url c.method c.cfg) st) := by
    intro cs
    induction cs with
    | nil => intro st h; exact h
    | cons c cs ih =>
        intro st h
        rw [List.foldl_cons]
        exact ih _ (add_path_WF st c.path c.url c.method c.cfg h)
  exact H calls initStore WF_initStore

/--
**C8.** For every sequence of `add_path` calls applied to a freshly
constructed `CommandStore`, the resulting tree contains exactly one node
with fullpath `"/"` (the root) and the `fullpath` values of all nodes are
pairwise distinct.  Since this holds for every call sequence, every
`add_path` call preserves the invariant.
-/
theorem C8_fullpath_invariants (calls : List AddCall) :
    ((apply_add_paths calls).filter fun n => n.fullpath == "/").length = 1
    ∧ ((apply_add_paths calls).map fun n => n.fullpath).Nodup := by
  obtain ⟨hne, hroot, -, -, hnodup⟩ := WF_apply_add_paths calls
  rcases hst : apply_add_paths calls with _ | ⟨h0, t⟩
  · exact absurd hst hne
  · rw [hst] at hroot hnodup
    have h0fp : h0.fullpath = "/" := by simpa [nodeAt] using hroot
    rw [List.map_cons, List.nodup_cons] at hnodup
    refine ⟨?_, by simpa [List.nodup_cons] using hnodup⟩
    rw [List.filter_cons_of_pos (by simp [h0fp])]
    have ht : t.filter (fun n => n.fullpath == "/") = [] := by
      apply List.filter_eq_nil_iff.mpr
      intro n hn hbeq
      apply hnodup.1
      have : n.fullpath = "/" := by simpa using hbeq
      rw [h0fp, ← this]
      exact List.mem_map_of_mem _ hn
    rw [ht]
    rfl

theorem set_append_last {α : Type _} (l : List α) (x y : α) :
    (l ++ [x]).set l.length y = l ++ [y] := by
  induction l with
  | nil => rfl
  | cons a t ih =>
      show a :: ((t ++ [x]).set t.length y) = a :: (t ++ [y])
      rw [ih]

theorem mem_inter_canons_of_idx {path : String} {i : Nat}
    (hi : i ∈ List.range ((get_path_list path).length - 1))
    (his : searchCurly ((get_path_list path).getD i "") = false) :
    pre_process_fullpath ("/" ++ "/".intercalate (List.take (i + 1) (get_path_list path)))
      ∈ inter_canons path := by
  unfold inter_canons
  apply List.mem_filterMap.mpr
  have his' : searchCurly ((get_path_list path)[i]?.getD "") = false := by
    rw [← List.getD_eq_getElem?_getD]
    exact his
  exact ⟨i, hi, by simp [his']⟩

theorem add_path_count (st : Store) (path url method : String) (cfg : PathConfig)
    (hWF : WF st)
    (hne : get_path_list path ≠ [])
    (hfresh : pre_process_fullpath path ∉ st.map fun n => n.fullpath)
    (hinter : pre_process_fullpath path ∉ inter_canons path) :
    (((add_path st path url method cfg).filter fun n => n.is_command).map fun n => n.fullpath)
      = (((st.filter fun n => n.is_command).map fun n => n.fullpath) ++ [pre_process_fullpath path])
    ∧ ∀ m ∈ add_path st path url method cfg,
        (m.fullpath ∈ st.map fun n => n.fullpath)
        ∨ m.fullpath ∈ inter_canons path
        ∨ m.fullpath = pre_process_fullpath path := by
  obtain ⟨hWF1, hp1, hfil1, hmem1⟩ := foldl_addInterSeg_inv (get_path_list path)
    (List.range ((get_path_list path).length - 1)) st 0 hWF (List.length_pos.mpr hWF.1)
  have hfresh1 : pre_process_fullpath path
      ∉ ((List.range ((get_path_list path).length - 1)).foldl
          (addInterSeg (get_path_list path)) (st, 0)).1.map (fun n => n.fullpath) := by
    intro hmem
    obtain ⟨m, hm, hfp⟩ := List.mem_map.mp hmem
    rcases hmem1 m hm with h1 | ⟨i, hi, his, hifp, -⟩
    · exact hfresh (hfp ▸ List.mem_map_of_mem _ h1)
    · exact hinter (hfp ▸ hifp ▸ mem_inter_canons_of_idx hi his)
  have hfind : get_node_by_path
      ((List.range ((get_path_list path).length - 1)).foldl
        (addInterSeg (get_path_list path)) (st, 0)).1 (pre_process_fullpath path)
      = Option.none :=
    (get_node_by_path_none_iff hWF1 _).mpr hfresh1
  simp only [add_path]
  rw [if_neg (by simpa [List.isEmpty_iff] using hne)]
  rw [hfind]
  dsimp only
  rw [set_append_last]
  constructor
  · rw [List.filter_append, List.map_append, hfil1]
    congr 1
    rw [List.filter_cons_of_pos (by simp [nodeAt_append_self, mkNode])]
    rw [List.filter_nil, List.map_cons, List.map_nil]
    congr 1
    simp [nodeAt_append_self, mkNode]
  · intro m hm
    rcases List.mem_append.mp hm with h1 | h1
    · rcases hmem1 m h1 with h2 | ⟨i, hi, his, hifp, -⟩
      · exact Or.inl (List.mem_map_of_mem _ h2)
      · exact Or.inr (Or.inl (hifp ▸ mem_inter_canons_of_idx hi his))
    · simp only [List.mem_singleton] at h1
      subst h1
      refine Or.inr (Or.inr ?_)
      simp [nodeAt_append_self, mkNode]

theorem foldl_add_path_count :
    ∀ (calls : List AddCall) (done : List String) (st : Store),
    WF st →
    ((st.filter fun n => n.is_command).map fun n => n.fullpath)
      = done.map pre_process_fullpath →
    (∀ m ∈ st, m.fullpath = "/" ∨ m.fullpath ∈ done.map pre_process_fullpath
        ∨ ∃ q ∈ done, m.fullpath ∈ inter_canons q) →
    ((done ++ calls.map AddCall.path).map pre_process_fullpath).Nodup →
    (∀ p ∈ calls.map AddCall.path, get_path_list p ≠ []) →
    (∀ p ∈ calls.map AddCall.path, pre_process_fullpath p ≠ "/") →
    (∀ p ∈ calls.map AddCall.path, ∀ q ∈ done ++ calls.map AddCall.path,
        pre_process_fullpath p ∉ inter_canons q) →
    (((calls.foldl (fun s c => add_path s c.path c.url c.method c.cfg) st).filter
        fun n => n.is_command).map fun n => n.fullpath)
      = (done ++ calls.map AddCall.path).map pre_process_fullpath := by
  intro calls
  induction calls with
  | nil =>
      intro done st _ hcount _ _ _ _ _
      simpa using hcount
  | cons c rest ih =>
      intro done st hWF hcount hmem hnodup hne hroot hinter
      rw [List.foldl_cons]
      have hnodup' : ((done.map pre_process_fullpath)
          ++ (pre_process_fullpath c.path
              :: (rest.map AddCall.path).map pre_process_fullpath)).Nodup := by
        simpa using hnodup
      obtain ⟨-, hnd2, hdisj⟩ := List.nodup_append.mp hnodup'
      have hcanon_not_done : pre_process_fullpath c.path ∉ done.map pre_process_fullpath :=
        fun hmem' => (List.disjoint_left.mp hdisj hmem') (by simp)
      have hfresh : pre_process_fullpath c.path ∉ st.map fun n => n.fullpath := by
        intro hmem'
        obtain ⟨m, hm, hfp⟩ := List.mem_map.mp hmem'
        rcases hmem m hm with h1 | h1 | ⟨q, hq, hq2⟩
        · exact hroot c.path (by simp) (hfp ▸ h1)
        · exact hcanon_not_done (hfp ▸ h1)
        · exact hinter c.path (by simp) q (List.mem_append.mpr (Or.inl hq)) (hfp ▸ hq2)
      obtain ⟨hstep1, hstep2⟩ := add_path_count st c.path c.url c.method c.cfg hWF
        (hne c.path (by simp)) hfresh (hinter c.path (by simp) c.path (by simp))
      simp only [List.map_cons]
      rw [List.append_cons]
      apply ih (done ++ [c.path])
      · exact add_path_WF st c.path c.url c.method c.cfg hWF
      · rw [hstep1, hcount, List.map_append]
        rfl
      · intro m hm
        rcases hstep2 m hm with h1 | h1 | h1
        · obtain ⟨m', hm', hfp'⟩ := List.mem_map.mp h1
          rcases hmem m' hm' with h2 | h2 | ⟨q, hq, hq2⟩
          · exact Or.inl (hfp' ▸ h2)
          · refine Or.inr (Or.inl ?_)
            rw [List.map_append]
            exact List.mem_append.mpr (Or.inl (hfp' ▸ h2))
          · exact Or.inr (Or.inr ⟨q, List.mem_append.mpr (Or.inl hq), hfp' ▸ hq2⟩)
        · exact Or.inr (Or.inr ⟨c.path, List.mem_append.mpr (Or.inr (by simp)), h1⟩)
        · exact Or.inr (Or.inl (by simp [h1]))
      · rw [← List.append_cons]
        simpa using hnodup
      · intro p hp
        exact hne p (by simp [hp])
      · intro p hp
        exact hroot p (by simp [hp])
      · intro p hp q hq
        rw [← List.append_cons] at hq
        exact hinter p (by simp [hp]) q (by simpa using hq)

theorem foldl_flatMap_eq {α β σ : Type _} (g : α → List β) (f : σ → β → σ) :
    ∀ (L : List α) (init : σ),
    (L.flatMap g).foldl f init = L.foldl (fun s a => (g a).foldl f s) init := by
  intro L
  induction L with
  | nil => intro init; rfl
  | cons a t ih => intro init; rw [List.flatMap_cons, List.foldl_append, List.foldl_cons, ih]

theorem parse_paths_eq_foldl (config : SwagConfig) (scheme0 : String) (rest : List String)
    (hs : config.schemes.getD ["https"] = scheme0 :: rest) :
    parse_paths config = Option.some ((callsOf config scheme0).foldl
      (fun st c => add_path st c.path c.url c.method c.cfg) initStore) := by
  unfold parse_paths
  rw [hs]
  rw [callsOf, foldl_flatMap_eq]
  simp only [List.foldl_map]

theorem effective_paths_eq_map (config : SwagConfig) (scheme0 : String) :
    effective_paths config = (callsOf config scheme0).map AddCall.path := by
  unfold effective_paths callsOf
  rw [List.map_flatMap]
  simp only [List.map_map]
  rfl

theorem pairCount_eq (config : SwagConfig) : pairCount config = (effective_paths config).length := by
  unfold pairCount effective_paths
  rw [List.length_flatMap, List.length_flatMap]
  congr 1
  apply List.map_congr_left
  intro pc _
  simp

/--
**C1 (amended).** For every swagger config whose paths map contains `N`
distinct (path, method) pairs, none of which normalize to the same
canonical path — and, additionally, none of whose canonical paths is `"/"`
or coincides with the canonical prefix path of an intermediate (navigation)
node of any pair, and every pair's effective path has at least one segment —
building the command tree (parsing paths with no include/exclude filters
and no prehooks, then `CommandStore.add_path` for each pair) yields a tree
with exactly `N` nodes whose `is_command` flag is true.
-/
theorem C1_command_count (config : SwagConfig) (st : Store)
    (hdist : ((effective_paths config).map pre_process_fullpath).Nodup)
    (hne : ∀ p ∈ effective_paths config, get_path_list p ≠ [])
    (hroot : ∀ p ∈ effective_paths config, pre_process_fullpath p ≠ "/")
    (hinter : ∀ p ∈ effective_paths config, ∀ q ∈ effective_paths config,
        pre_process_fullpath p ∉ inter_canons q)
    (hps : parse_paths config = Option.some st) :
    countCommands st = pairCount config := by
  cases hs : config.schemes.getD ["https"] with
  | nil =>
      rw [parse_paths, hs] at hps
      cases hps
  | cons scheme0 rest =>
      have heq := parse_paths_eq_foldl config scheme0 rest hs
      rw [heq] at hps
      have hst := (Option.some_injective _ hps).symm
      have hpaths := effective_paths_eq_map config scheme0
      rw [hpaths] at hdist hne hroot hinter
      have hmain := foldl_add_path_count (callsOf config scheme0) [] initStore WF_initStore
        (by decide)
        (by
          intro m hm
          simp only [initStore, List.mem_singleton] at hm
          subst hm
          exact Or.inl rfl)
        (by simpa using hdist) hne hroot (by simpa using hinter)
      rw [hst]
      unfold countCommands
      rw [pairCount_eq, hpaths]
      have hlen := congrArg List.length hmain
      simpa using hlen

/--
**C1 (counterexample).** The claim as frozen fails on the single-pair
config `cfgArgPath` (N = 1, no canonical collision between pairs): the
canonical leaf path `/a` of `/a/{x}` coincides with the intermediate node
created for the segment `a`, so `add_path` reuses that navigation node
without marking it a command, and the built tree has 0 `is_command` nodes
instead of 1.
-/
theorem C1_command_count_counterexample :
    (parse_paths cfgArgPath).map countCommands = Option.some 0
    ∧ pairCount cfgArgPath = 1
    ∧ ((effective_paths cfgArgPath).map pre_process_fullpath).Nodup
    ∧ (0 : Nat) ≠ 1 :=
  ⟨rfl, rfl, by decide, by decide⟩

/-- Witness for C1 on a three-pair config with no canonical collisions:
`/pet` (one method) and `/user` (get and post) give exactly 3 command
nodes. -/
theorem C1_command_count_witness :
    ∃ st, parse_paths cfgPetUser = Option.some st ∧ countCommands st = 3 := by
  refine ⟨(parse_paths cfgPetUser).getD [], rfl, ?_⟩
  have h := C1_command_count cfgPetUser _ (by decide) (by decide) (by decide) (by decide) rfl
  exact h.trans rfl
